import Mathlib

/-!
Verification development for `git_analysis.py` — a single-file tool that
attributes file changes in a git history window to CODEOWNERS-style owners
and reports, per owner, the most-changed files.

The Python source is shallowly embedded below.  The embedding conventions:

* Python strings are Lean `String`s; the helpers `pyStrip`, `pySplitWs`
  model `str.strip()` / `str.split()` (split on runs of whitespace,
  dropping empties).
* `str.replace(old, new)` with a single-character `old` is modelled by
  `replaceChar`, the character-wise expansion; for one-character targets
  this coincides with Python's leftmost, non-overlapping replacement.
* The regular expressions produced by `get_code_owners` are compiled by a
  small executable engine (`Regex`, `compileRegex`, `rmatchB`) faithful to
  the `re` module on the fragment this program can produce: literals,
  `.` (any character except newline), postfix `*`/`+`/`?` (with the lazy
  `?` suffix, and "multiple repeat" / "nothing to repeat" errors), `\c`
  escapes, groups `( … )`, alternation `|`, and simple character classes.
  `^`, `$` and `{` are outside the modelled fragment: the compiler signals
  an error for them, so theorems hypothesising a successful compile are
  restricted to the faithfully modelled fragment.  `re.Pattern.match`
  anchors at the start of the string and accepts as soon as any
  (possibly empty) prefix matches; `rmatchB` implements exactly that via
  Brzozowski derivatives.
* Python dicts preserve insertion order; overwriting a key keeps its
  original position and replaces the value.  `owners_dict` is keyed by
  `re.compile(pattern)` objects and the `re` module caches compiled
  patterns by pattern string, so two syntactically equal compiled patterns
  are the same dict key.  `dictInsert` models this: the key is the
  translated pattern string.
* The git objects that reach the analysed code are modelled by their used
  fields: a `Commit` carries identity, committed timestamp (normalised to
  UTC, an `Int`), author email and parent ids; the diff of a commit
  against its first parent is an oracle `Nat → Nat → List DiffEntry`
  supplied as a parameter, each entry exposing its a-side path
  (`None` in Python — `none` here — for entries without one).
* The pandas aggregation (`groupby(...).size()`, `groupby(...).sum()`,
  `sort_values(ascending := False)`, `head(30)`, `unique()`) is modelled
  over lists: `groupby` with default `sort := True` lists group keys in
  ascending order; `sort_values` descending is modelled as a stable
  descending sort (on the small frames evaluated in this file numpy's
  sort is an insertion sort, which is stable).
-/

/-- Models Python `str.strip()` (with no argument): remove leading and
trailing whitespace. -/
def pyStrip (s : String) : String :=
  String.mk (((s.data.dropWhile Char.isWhitespace).reverse.dropWhile Char.isWhitespace).reverse)

/-- Worker for `pySplitWs`: accumulates the current word (reversed). -/
def splitWsAux : List Char → List Char → List (List Char)
  | [], acc => if acc.isEmpty then [] else [acc.reverse]
  | c :: rest, acc =>
    if c.isWhitespace then
      if acc.isEmpty then splitWsAux rest [] else acc.reverse :: splitWsAux rest []
    else splitWsAux rest (c :: acc)

/-- Models Python `str.split()` (with no argument): split on runs of
whitespace, never producing empty words. -/
def pySplitWs (s : String) : List String :=
  (splitWsAux s.data []).map String.mk

/-- Models Python `str.replace(target, repl)` for a one-character `target`:
every occurrence of `target` expands to `repl`. -/
def replaceChar (s : String) (target : Char) (repl : List Char) : String :=
  String.mk (s.data.flatMap (fun c => if c = target then repl else [c]))

/-- The glob-to-regex translation of `get_code_owners` (line 32):
`pattern.replace('*', '.*').replace('/', '\\/')`. -/
def translateGlob (p : String) : String :=
  replaceChar (replaceChar p '*' ['.', '*']) '/' ['\\', '/']

/-- Abstract syntax of the regular-expression fragment produced by the
translated CODEOWNERS patterns.  `cls neg ranges` is a character class
(`neg := true` for a negated class); the empty positive class matches no
character and doubles as the empty language. -/
inductive Regex where
  | epsilon : Regex
  | char (c : Char) : Regex
  | anyChar : Regex
  | cls (neg : Bool) (ranges : List (Char × Char)) : Regex
  | seq (a b : Regex) : Regex
  | alt (a b : Regex) : Regex
  | star (a : Regex) : Regex
deriving DecidableEq

/-- The empty language (no string matches). -/
def Regex.void : Regex := Regex.cls false []

/-- Does the character class accept character `c`? -/
def matchCls (neg : Bool) (ranges : List (Char × Char)) (c : Char) : Bool :=
  let base := ranges.any (fun pr => decide (pr.1 ≤ c) && decide (c ≤ pr.2))
  if neg then !base else base

/-- Does the regex accept the empty string? -/
def nullable : Regex → Bool
  | .epsilon => true
  | .char _ => false
  | .anyChar => false
  | .cls _ _ => false
  | .seq a b => nullable a && nullable b
  | .alt a b => nullable a || nullable b
  | .star _ => true

/-- Brzozowski derivative: the residual language after consuming `c`.
`anyChar` is Python's `.`, which does not match a newline. -/
def derivR : Regex → Char → Regex
  | .epsilon, _ => Regex.void
  | .char d, c => if c = d then Regex.epsilon else Regex.void
  | .anyChar, c => if c = '\n' then Regex.void else Regex.epsilon
  | .cls neg ranges, c => if matchCls neg ranges c then Regex.epsilon else Regex.void
  | .seq a b, c =>
    if nullable a then Regex.alt (Regex.seq (derivR a c) b) (derivR b c)
    else Regex.seq (derivR a c) b
  | .alt a b, c => Regex.alt (derivR a c) (derivR b c)
  | .star a, c => Regex.seq (derivR a c) (Regex.star a)

/-- Whole-string acceptance of the regex. -/
def fullMatchB (r : Regex) : List Char → Bool
  | [] => nullable r
  | c :: s => fullMatchB (derivR r c) s

/-- Models the truthiness of `re.Pattern.match(s)`: anchored at the start,
succeeding as soon as some (possibly empty) prefix is accepted. -/
def rmatchB (r : Regex) : List Char → Bool
  | [] => nullable r
  | c :: s => nullable r || rmatchB (derivR r c) s

/-- Parses the items of a character class, after the opening `[` (and an
optional `^`), up to the closing `]`.  Returns the accepted ranges and the
rest of the input; `none` models `re.error` (unterminated set, bad range). -/
def parseClsItems (fuel : Nat) (s : List Char) (acc : List (Char × Char)) :
    Option (List (Char × Char) × List Char) :=
  match fuel with
  | 0 => none
  | fuel + 1 =>
    match s with
    | [] => none
    | c :: rest =>
      if c = ']' then if acc.isEmpty then none else some (acc.reverse, rest)
      else if c = '\\' then
        match rest with
        | d :: rest2 => parseClsItems fuel rest2 ((d, d) :: acc)
        | [] => none
      else
        match rest with
        | '-' :: b :: rest2 =>
          if b = ']' then parseClsItems fuel (']' :: rest2) (('-', '-') :: (c, c) :: acc)
          else if c ≤ b then parseClsItems fuel rest2 ((c, b) :: acc)
          else none
        | _ => parseClsItems fuel rest ((c, c) :: acc)

/-- Combines the atoms of a concatenation, left-associated. -/
def mkSeq : Option Regex → Regex → Regex
  | none, r => r
  | some a, r => Regex.seq a r

/-- An empty concatenation is `epsilon`. -/
def finCat : Option Regex → Regex
  | none => Regex.epsilon
  | some a => a

/-- Applies at most one quantifier (`*`, `+`, `?`, optionally followed by
the lazy marker `?`, which does not change the accepted language) to a
parsed atom.  A quantifier directly following another is the `re` module's
"multiple repeat" error (`none`). -/
def applyQuants (atom : Regex) (s : List Char) : Option (Regex × List Char) :=
  match s with
  | [] => some (atom, [])
  | q :: rest =>
    if q = '*' ∨ q = '+' ∨ q = '?' then
      let r := if q = '*' then Regex.star atom
               else if q = '+' then Regex.seq atom (Regex.star atom)
               else Regex.alt atom Regex.epsilon
      let rest2 := match rest with
                   | '?' :: r2 => r2
                   | _ => rest
      match rest2 with
      | [] => some (r, [])
      | q2 :: _ => if q2 = '*' ∨ q2 = '+' ∨ q2 = '?' then none else some (r, rest2)
    else some (atom, s)

mutual

/-- Parses an alternation (`|`-separated concatenations). -/
def parseAlt (fuel : Nat) (s : List Char) : Option (Regex × List Char) :=
  match fuel with
  | 0 => none
  | f + 1 =>
    match parseCat f s none with
    | none => none
    | some (r, rest) =>
      match rest with
      | '|' :: rest2 =>
        match parseAlt f rest2 with
        | none => none
        | some (r2, rest3) => some (Regex.alt r r2, rest3)
      | _ => some (r, rest)

/-- Parses a concatenation of quantified atoms, stopping at `|`, `)` or the
end of input.  `none` models `re.error`. -/
def parseCat (fuel : Nat) (s : List Char) (acc : Option Regex) : Option (Regex × List Char) :=
  match fuel with
  | 0 => none
  | f + 1 =>
    match s with
    | [] => some (finCat acc, [])
    | c :: rest =>
      if c = '|' ∨ c = ')' then some (finCat acc, s)
      else if c = '(' then
        match parseAlt f rest with
        | some (r, d :: rest2) =>
          if d = ')' then
            match applyQuants r rest2 with
            | some (r2, rest3) => parseCat f rest3 (some (mkSeq acc r2))
            | none => none
          else none
        | _ => none
      else
        let atomRes : Option (Regex × List Char) :=
          if c = '.' then some (Regex.anyChar, rest)
          else if c = '\\' then
            match rest with
            | d :: rest2 => some (Regex.char d, rest2)
            | [] => none
          else if c = '[' then
            match rest with
            | '^' :: rest2 =>
              (parseClsItems (rest2.length + 1) rest2 []).map
                (fun pr => (Regex.cls true pr.1, pr.2))
            | _ =>
              (parseClsItems (rest.length + 1) rest []).map
                (fun pr => (Regex.cls false pr.1, pr.2))
          else if c = '*' ∨ c = '+' ∨ c = '?' then none
          else if c = '^' ∨ c = '$' ∨ c = '{' then none
          else some (Regex.char c, rest)
        match atomRes with
        | none => none
        | some (atom, rest2) =>
          match applyQuants atom rest2 with
          | none => none
          | some (r2, rest3) => parseCat f rest3 (some (mkSeq acc r2))

end

/-- Models `re.compile` on the modelled fragment: `some` is a successfully
compiled pattern, `none` is `re.error`. -/
def compileRegex (t : String) : Option Regex :=
  match parseAlt (4 * (t.data.length + 1)) t.data with
  | some (r, []) => some r
  | _ => none

/-- The compiled matcher the program builds for one CODEOWNERS glob:
translate, then compile. -/
def compilePattern (g : String) : Option Regex :=
  compileRegex (translateGlob g)

/-- Truthiness of `re.compile(translated g).match(p)`, `none` when the
pattern does not compile. -/
def patternMatch (g p : String) : Option Bool :=
  (compilePattern g).map (fun r => rmatchB r p.data)

/-- One entry of `owners_dict`: the translated pattern string (the dict-key
identity of the cached compiled pattern), its compiled regex, and the
first owner token of the manifest line. -/
structure Rule where
  pat : String
  regex : Regex
  owner : String
deriving DecidableEq

/-- Python-dict insertion for `owners_dict[re.compile(pattern)] = owner`:
overwriting an existing key keeps its position and replaces the owner;
a new key is appended. -/
def dictInsert (rs : List Rule) (r : Rule) : List Rule :=
  if rs.any (fun x => decide (x.pat = r.pat)) then
    rs.map (fun x => if x.pat = r.pat then Rule.mk x.pat x.regex r.owner else x)
  else rs ++ [r]

/-- One manifest line of `get_code_owners` (lines 26-31): strip, skip
blank lines and `#` comments, whitespace-split, require at least two
tokens, keep the pattern and the first owner token. -/
def parseLine (line : String) : Option (String × String) :=
  let l := pyStrip line
  if l.data.isEmpty then none
  else if l.data.head? = some '#' then none
  else
    match pySplitWs l with
    | p :: o :: _ => some (p, o)
    | _ => none

/-- The manifest-reading loop of `get_code_owners`: lines in file order,
each parsed line translated, compiled and inserted into the dict.
`none` models an escaped `re.error`. -/
def loadRules (acc : List Rule) : List String → Option (List Rule)
  | [] => some acc
  | line :: rest =>
    match parseLine line with
    | none => loadRules acc rest
    | some po =>
      match compileRegex (translateGlob po.1) with
      | none => none
      | some rx => loadRules (dictInsert acc (Rule.mk (translateGlob po.1) rx po.2)) rest

/-- `get_code_owners` (lines 18-34): `none` for the manifest argument
models an absent CODEOWNERS file (the function returns `{}`); the result
`none` models an escaped `re.error` while loading. -/
def get_code_owners : Option (List String) → Option (List Rule)
  | none => some []
  | some lines => loadRules [] lines

/-- `match_path_to_owner` (lines 36-41): first rule of the dict (in
insertion order) whose compiled pattern matches the path, else the
sentinel. -/
def match_path_to_owner (filePath : String) (owners : List Rule) : String :=
  match owners.find? (fun r => rmatchB r.regex filePath.data) with
  | some r => r.owner
  | none => "Unknown"

/-- The owner of the first matching rule, as an `Option`. -/
def resolveOpt (filePath : String) (rs : List Rule) : Option String :=
  (rs.find? (fun r => rmatchB r.regex filePath.data)).map (fun r => r.owner)

/-- Left-biased choice on `Option`. -/
def optOr {α : Type} (a b : Option α) : Option α :=
  match a with
  | some x => some x
  | none => b

/-- Modelled from the spec's resolution contract, for comparison with the
code: scan the manifest lines themselves in file order and return the
owner of the first line whose compiled pattern matches the path
(lines that do not parse, or do not compile, cannot match). -/
def specResolveOpt (filePath : String) : List String → Option String
  | [] => none
  | line :: rest =>
    match parseLine line with
    | none => specResolveOpt filePath rest
    | some po =>
      match compileRegex (translateGlob po.1) with
      | none => specResolveOpt filePath rest
      | some rx =>
        if rmatchB rx filePath.data then some po.2 else specResolveOpt filePath rest

/-- Modelled from the spec's words: `resolve(R, p)` over the manifest rules
in file order, `"Unknown"` when no rule matches. -/
def specFirstMatchOwner (lines : List String) (filePath : String) : String :=
  (specResolveOpt filePath lines).getD "Unknown"

/-- The translated-pattern strings of the parsed manifest lines, in file
order. -/
def patsOf (lines : List String) : List String :=
  (lines.filterMap parseLine).map (fun po => translateGlob po.1)

/-- One record of `commit_data` (lines 101-106): the commit's UTC
timestamp, the author email, the changed file's a-side path, and the
resolved owner. -/
structure ChangeRecord where
  date : Int
  author : String
  file : String
  owner : String
deriving DecidableEq

/-- One entry of `commit.parents[0].diff(commit)`, reduced to the only
field the program reads: `a_path` (`none` models Python `None`). -/
structure DiffEntry where
  a_path : Option String
deriving DecidableEq

/-- A commit, reduced to the fields the program reads: an identity for the
diff oracle, `committed_datetime.astimezone(timezone.utc)` as an `Int`
timestamp, `author.email`, and the ids of its parents in order. -/
structure Commit where
  id : Nat
  committedDate : Int
  authorEmail : String
  parents : List Nat
deriving DecidableEq

/-- The per-commit body of the processing loop (lines 96-106): a root
commit (no parents) is skipped; otherwise every diff entry against the
first parent with a truthy `a_path` yields one record. -/
def recordsOfCommit (diffFirstParent : Nat → Nat → List DiffEntry) (owners : List Rule)
    (c : Commit) : List ChangeRecord :=
  match c.parents with
  | [] => []
  | p :: _ =>
    (diffFirstParent p c.id).filterMap (fun d =>
      match d.a_path with
      | none => none
      | some s =>
        if s = "" then none
        else some (ChangeRecord.mk c.committedDate c.authorEmail s
          (match_path_to_owner s owners)))

/-- The whole processing loop: commits in the order they were listed
(newest first), records appended in order. -/
def commitData (diffFirstParent : Nat → Nat → List DiffEntry) (owners : List Rule)
    (commits : List Commit) : List ChangeRecord :=
  commits.flatMap (recordsOfCommit diffFirstParent owners)

/-- Keeps the first occurrence of every value, models
`pandas.Series.unique` and the key enumeration of `groupby`. -/
def uniqueFirstAux {α : Type} [DecidableEq α] (seen : List α) : List α → List α
  | [] => []
  | a :: l => if a ∈ seen then uniqueFirstAux seen l else a :: uniqueFirstAux (a :: seen) l

/-- Distinct values of a list, first occurrences first. -/
def uniqueFirst {α : Type} [DecidableEq α] (l : List α) : List α :=
  uniqueFirstAux [] l

/-- One row of `file_changes`: owner, file, number of change records. -/
structure OwnerFileStat where
  owner : String
  file : String
  changes : Nat
deriving DecidableEq

/-- Strict lexicographic comparison of character lists by code point, the
order Python uses to compare the strings grouped by pandas. -/
def charListLt : List Char → List Char → Bool
  | [], [] => false
  | [], _ :: _ => true
  | _ :: _, [] => false
  | a :: s, b :: t =>
    if a.toNat < b.toNat then true
    else if b.toNat < a.toNat then false
    else charListLt s t

/-- Strict string comparison by code points. -/
def strLtB (a b : String) : Bool := charListLt a.data b.data

/-- Reflexive string comparison by code points. -/
def strLeB (a b : String) : Bool := !(charListLt b.data a.data)

/-- Ascending order on owner names, the order in which
`groupby('owner')` (default `sort := True`) lists its groups. -/
def strLe (a b : String) : Prop := strLeB a b = true

instance : DecidableRel strLe := fun a b =>
  inferInstanceAs (Decidable (strLeB a b = true))

/-- Ascending lexicographic order on `(owner, file)` keys, the order in
which `groupby(['owner', 'file'])` (default `sort := True`) lists its
groups. -/
def strPairLe (a b : String × String) : Prop :=
  (strLtB a.1 b.1 || (a.1 == b.1 && strLeB a.2 b.2)) = true

instance : DecidableRel strPairLe := fun a b =>
  inferInstanceAs (Decidable ((strLtB a.1 b.1 || (a.1 == b.1 && strLeB a.2 b.2)) = true))

/-- `df.groupby(['owner', 'file']).size().reset_index(name := 'changes')`
(line 137): one row per distinct key, keys ascending, value the group
size. -/
def fileChanges (records : List ChangeRecord) : List OwnerFileStat :=
  (List.insertionSort strPairLe (uniqueFirst (records.map (fun r => (r.owner, r.file))))).map
    (fun k => OwnerFileStat.mk k.1 k.2
      ((records.filter (fun r => decide (r.owner = k.1 ∧ r.file = k.2))).length))

/-- `file_changes.groupby('owner')['changes'].sum()` (line 140, before the
sort): owners ascending, each with the sum of its rows' counts. -/
def ownerTotals (fc : List OwnerFileStat) : List (String × Nat) :=
  (List.insertionSort strLe (uniqueFirst (fc.map (fun x => x.owner)))).map
    (fun o => (o, ((fc.filter (fun x => decide (x.owner = o))).map (fun x => x.changes)).sum))

/-- `.sort_values(ascending := False)` on the owner totals (line 140),
modelled as a stable descending sort. -/
def ownerTotalsSorted (fc : List OwnerFileStat) : List (String × Nat) :=
  List.insertionSort (fun a b : String × Nat => b.2 ≤ a.2) (ownerTotals fc)

/-- One displayed expander (lines 143-161): the owner, its total change
count, and its top rows. -/
structure OwnerTable where
  owner : String
  total : Nat
  rows : List OwnerFileStat
deriving DecidableEq

/-- The report loop (lines 143-161): for every owner of the sorted totals,
its `file_changes` rows sorted by count descending, truncated to 30. -/
def buildReport (records : List ChangeRecord) : List OwnerTable :=
  (ownerTotalsSorted (fileChanges records)).map (fun ot =>
    OwnerTable.mk ot.1 ot.2
      ((List.insertionSort (fun a b : OwnerFileStat => b.changes ≤ a.changes)
        ((fileChanges records).filter (fun x => decide (x.owner = ot.1)))).take 30))

/-- The overall statistics (lines 120-131): `len(df['date'].unique())`,
`len(df['file'].unique())`, `len(df['owner'].unique())`. -/
structure Summary where
  totalCommits : Nat
  totalFiles : Nat
  totalOwners : Nat
deriving DecidableEq

/-- The three `st.metric` values computed from the record frame. -/
def summaryOf (records : List ChangeRecord) : Summary :=
  Summary.mk
    (uniqueFirst (records.map (fun r => r.date))).length
    (uniqueFirst (records.map (fun r => r.file))).length
    (uniqueFirst (records.map (fun r => r.owner))).length

/-- The terminal outcomes of one analysis run: the two warning-and-return
paths (lines 84-86 and 116-118), which carry no summary and no report,
and the success path. -/
inductive AnalysisResult where
  | noCommits : AnalysisResult
  | noChanges : AnalysisResult
  | success (s : Summary) (tables : List OwnerTable) : AnalysisResult
deriving DecidableEq

/-- The analysis body of `main` (lines 80-161), in source order: list the
window's commits, return `noCommits` when there are none, load the
manifest (a propagated `re.error` is the `except` branch, `none` here),
build the records, return `noChanges` when there are none, otherwise
report.  -/
def analyze (diffFirstParent : Nat → Nat → List DiffEntry) (manifest : Option (List String))
    (commits : List Commit) : Option AnalysisResult :=
  if commits.isEmpty then some AnalysisResult.noCommits
  else
    match get_code_owners manifest with
    | none => none
    | some owners =>
      let records := commitData diffFirstParent owners commits
      if records.isEmpty then some AnalysisResult.noChanges
      else some (AnalysisResult.success (summaryOf records) (buildReport records))

/-- Modelled from the claim's words for C6: the grouped rows in record
encounter order (no alphabetical grouping), owners and rows ordered by
stable descending sorts, so that ties are broken by encounter order. -/
def fcEncounter (records : List ChangeRecord) : List OwnerFileStat :=
  (uniqueFirst (records.map (fun r => (r.owner, r.file)))).map
    (fun k => OwnerFileStat.mk k.1 k.2
      ((records.filter (fun r => decide (r.owner = k.1 ∧ r.file = k.2))).length))

/-- Modelled from the claim's words for C6: the report the claim's
tie-breaking rule (encounter order, stable sorts) would produce. -/
def specEncounterReport (records : List ChangeRecord) : List OwnerTable :=
  let fc := fcEncounter records
  (List.insertionSort (fun a b : String × Nat => b.2 ≤ a.2)
    ((uniqueFirst (fc.map (fun x => x.owner))).map
      (fun o => (o, ((fc.filter (fun x => decide (x.owner = o))).map (fun x => x.changes)).sum)))).map
    (fun ot =>
      OwnerTable.mk ot.1 ot.2
        ((List.insertionSort (fun a b : OwnerFileStat => b.changes ≤ a.changes)
          (fc.filter (fun x => decide (x.owner = ot.1)))).take 30))

/-! ### Helper lemmas -/

theorem flatMap_comp (l : List Char) (f g : Char → List Char) :
    (l.flatMap f).flatMap g = l.flatMap (fun c => (f c).flatMap g) := by
  induction l with
  | nil => rfl
  | cons c t ih => simp only [List.flatMap_cons, List.flatMap_append, ih]

theorem flatMap_ext (l : List Char) (f g : Char → List Char) (h : ∀ c, f c = g c) :
    l.flatMap f = l.flatMap g := by
  induction l with
  | nil => rfl
  | cons c t ih => simp only [List.flatMap_cons, h, ih]

/-- The two single-character `replace` passes of line 32 amount to one
character-wise expansion: `*` becomes `.*`, `/` becomes `\/`, every other
character is passed through verbatim. -/
theorem translateGlob_eq (s : String) :
    translateGlob s = String.mk (s.data.flatMap (fun c =>
      if c = '*' then ['.', '*'] else if c = '/' then ['\\', '/'] else [c])) := by
  unfold translateGlob replaceChar
  refine congrArg String.mk ?_
  rw [flatMap_comp]
  refine flatMap_ext _ _ _ (fun c => ?_)
  by_cases h1 : c = '*'
  · subst h1; rfl
  · by_cases h2 : c = '/'
    · subst h2; simp [h1]
    · simp [h1, h2]

theorem fullMatch_void (s : List Char) : fullMatchB Regex.void s = false := by
  induction s with
  | nil => rfl
  | cons c t ih =>
    have hd : derivR Regex.void c = Regex.void := by
      simp [derivR, Regex.void, matchCls]
    simpa [fullMatchB, hd] using ih

theorem fullMatch_alt (a b : Regex) (s : List Char) :
    fullMatchB (Regex.alt a b) s = (fullMatchB a s || fullMatchB b s) := by
  induction s generalizing a b with
  | nil => rfl
  | cons c t ih => simpa [fullMatchB, derivR] using ih (derivR a c) (derivR b c)

theorem fullMatch_seq_void (r : Regex) (s : List Char) :
    fullMatchB (Regex.seq Regex.void r) s = false := by
  induction s with
  | nil => simp [fullMatchB, nullable, Regex.void]
  | cons c t ih =>
    have hd : derivR (Regex.seq Regex.void r) c = Regex.seq Regex.void r := by
      simp [derivR, Regex.void, nullable, matchCls]
    simpa [fullMatchB, hd] using ih

theorem fullMatch_seq_epsilon (r : Regex) (s : List Char) :
    fullMatchB (Regex.seq Regex.epsilon r) s = fullMatchB r s := by
  cases s with
  | nil => simp [fullMatchB, nullable]
  | cons c t =>
    have hd : derivR (Regex.seq Regex.epsilon r) c
        = Regex.alt (Regex.seq Regex.void r) (derivR r c) := by
      simp [derivR, nullable]
    show fullMatchB (derivR (Regex.seq Regex.epsilon r) c) t = fullMatchB (derivR r c) t
    rw [hd, fullMatch_alt, fullMatch_seq_void]
    simp

/-- `.*`, the translation of the glob `*`, accepts every newline-free run
of characters. -/
theorem fullMatch_star_any (s : List Char) (h : '\n' ∉ s) :
    fullMatchB (Regex.star Regex.anyChar) s = true := by
  induction s with
  | nil => rfl
  | cons c t ih =>
    have hc : ¬(c = '\n') := fun hc => h (hc ▸ List.mem_cons_self c t)
    have hd : derivR (Regex.star Regex.anyChar) c
        = Regex.seq Regex.epsilon (Regex.star Regex.anyChar) := by
      simp [derivR, hc]
    show fullMatchB (derivR (Regex.star Regex.anyChar) c) t = true
    rw [hd, fullMatch_seq_epsilon]
    exact ih (fun hm => h (List.mem_cons_of_mem c hm))

/-- The anchoring law of `re.Pattern.match`: the matcher succeeds exactly
when the regex fully matches some (possibly empty) prefix of the input —
anchored at the start, no full-string requirement. -/
theorem rmatch_iff_exists_take (r : Regex) (p : List Char) :
    rmatchB r p = true ↔ ∃ q, q <+: p ∧ fullMatchB r q = true := by
  induction p generalizing r with
  | nil =>
    constructor
    · intro h
      exact ⟨[], ⟨[], rfl⟩, h⟩
    · rintro ⟨q, ⟨t, ht⟩, hq⟩
      rcases List.append_eq_nil.mp ht with ⟨hq0, _⟩
      subst hq0
      exact hq
  | cons c s ih =>
    constructor
    · intro h
      rcases Bool.or_eq_true_iff.mp h with h1 | h2
      · exact ⟨[], ⟨c :: s, rfl⟩, h1⟩
      · rcases (ih (derivR r c)).mp h2 with ⟨q, ⟨t, ht⟩, hq⟩
        exact ⟨c :: q, ⟨t, by rw [List.cons_append, ht]⟩, hq⟩
    · rintro ⟨q, ⟨t, ht⟩, hq⟩
      cases q with
      | nil =>
        subst ht
        exact Bool.or_eq_true_iff.mpr (Or.inl hq)
      | cons c0 q0 =>
        have hc0 : c0 = c := by
          have := congrArg (fun l => List.head? l) ht
          simpa using this
        subst hc0
        have hrest : q0 ++ t = s := by
          have := congrArg List.tail ht
          simpa using this
        exact Bool.or_eq_true_iff.mpr
          (Or.inr ((ih (derivR r c0)).mpr ⟨q0, ⟨t, hrest⟩, hq⟩))

/-! ### Claim C2 -/

/-- C2 (corrected): the compiled matcher anchors at the start of the path
and needs no full-string match — it succeeds exactly when the translated
pattern fully matches some prefix of the path; a `*` in the glob compiles
to `.*` (`Regex.star Regex.anyChar`), which matches any run of characters
not containing a newline (Python `.` excludes newlines, the one amendment
to the claim), including path separators; a `/` compiles to the literal
separator; and the claim's concrete scenario holds: `src/*` matches
`src/foo/bar.go`, `docs/*` matches `docs/readme.md`, neither matches
`README.md`. -/
theorem c2_anchored_matching (g : String) (r : Regex) (p : List Char)
    (h : compilePattern g = some r) :
    patternMatch g (String.mk p) = some (rmatchB r p)
    ∧ (rmatchB r p = true ↔ ∃ q, q <+: p ∧ fullMatchB r q = true)
    ∧ (∀ s : List Char, '\n' ∉ s → fullMatchB (Regex.star Regex.anyChar) s = true)
    ∧ compilePattern "src/*"
        = some (Regex.seq (Regex.seq (Regex.seq (Regex.seq
            (Regex.char 's') (Regex.char 'r')) (Regex.char 'c')) (Regex.char '/'))
            (Regex.star Regex.anyChar))
    ∧ compilePattern "/" = some (Regex.char '/')
    ∧ patternMatch "src/*" "src/foo/bar.go" = some true
    ∧ patternMatch "docs/*" "docs/readme.md" = some true
    ∧ patternMatch "src/*" "README.md" = some false
    ∧ patternMatch "docs/*" "README.md" = some false := by
  refine ⟨?_, rmatch_iff_exists_take r p, fullMatch_star_any, by decide, by decide,
    by decide, by decide, by decide, by decide⟩
  rw [patternMatch, h]
  rfl

/-- Witness for C2 at the pattern `src/*` and the path `src/foo/bar.go`. -/
theorem c2_anchored_matching_witness :
    compilePattern "src/*"
        = some (Regex.seq (Regex.seq (Regex.seq (Regex.seq
            (Regex.char 's') (Regex.char 'r')) (Regex.char 'c')) (Regex.char '/'))
            (Regex.star Regex.anyChar))
    ∧ patternMatch "src/*" (String.mk ("src/foo/bar.go".data))
        = some (rmatchB (Regex.seq (Regex.seq (Regex.seq (Regex.seq
            (Regex.char 's') (Regex.char 'r')) (Regex.char 'c')) (Regex.char '/'))
            (Regex.star Regex.anyChar)) ("src/foo/bar.go".data)) :=
  ⟨by decide,
    (c2_anchored_matching "src/*"
      (Regex.seq (Regex.seq (Regex.seq (Regex.seq
        (Regex.char 's') (Regex.char 'r')) (Regex.char 'c')) (Regex.char '/'))
        (Regex.star Regex.anyChar)) ("src/foo/bar.go".data) (by decide)).1⟩

/-- Counterexample for C2 as frozen: the claim reads `*` as matching any
run of characters, so the pattern `*x` ought to match the path
`"a\nx"` (run `"a\n"`, then the literal `x`); that reading is realised by
`Regex.star (Regex.cls true [])` below and does match, but the compiled
matcher (Python `.` never matches a newline) returns `False` on this
path. -/
theorem c2_newline_counterexample :
    patternMatch "*x" (String.mk ('a' :: '\n' :: 'x' :: [])) = some false
    ∧ rmatchB (Regex.seq (Regex.star (Regex.cls true [])) (Regex.char 'x'))
        ('a' :: '\n' :: 'x' :: []) = true := by
  constructor
  · decide
  · decide

/-! ### Claim C10 -/

/-- C10 (confirmed): the glob translation rewrites only `*` (to `.*`) and
`/` (to `\/`); every other character is passed verbatim into the compiled
regular expression, so regex metacharacters keep their operator meaning —
the pattern `a.go` matches the path `axgo` — and the ill-formed pattern
`a(` is a compilation error (`re.error`) raised while the manifest is
being loaded by `get_code_owners`. -/
theorem c10_verbatim_metacharacters :
    (∀ s : String, translateGlob s = String.mk (s.data.flatMap (fun c =>
        if c = '*' then ['.', '*'] else if c = '/' then ['\\', '/'] else [c])))
    ∧ patternMatch "a.go" "axgo" = some true
    ∧ compilePattern "a(" = none
    ∧ get_code_owners (some ["a( x"]) = none :=
  ⟨translateGlob_eq, by decide, by decide, by decide⟩

/-! ### Claim C1 -/

theorem optOr_none_right {α : Type} (a : Option α) : optOr a none = a := by
  cases a <;> rfl

theorem optOr_assoc {α : Type} (a b c : Option α) :
    optOr (optOr a b) c = optOr a (optOr b c) := by
  cases a <;> rfl

theorem resolveOpt_cons (path : String) (r : Rule) (t : List Rule) :
    resolveOpt path (r :: t)
      = if rmatchB r.regex path.data then some r.owner else resolveOpt path t := by
  cases h : rmatchB r.regex path.data <;> simp [resolveOpt, List.find?, h]

theorem resolveOpt_append (path : String) (l1 l2 : List Rule) :
    resolveOpt path (l1 ++ l2) = optOr (resolveOpt path l1) (resolveOpt path l2) := by
  induction l1 with
  | nil => rfl
  | cons r t ih =>
    rw [List.cons_append, resolveOpt_cons, resolveOpt_cons]
    cases h : rmatchB r.regex path.data
    · simpa using ih
    · rfl

theorem match_path_to_owner_eq_getD (path : String) (rs : List Rule) :
    match_path_to_owner path rs = (resolveOpt path rs).getD "Unknown" := by
  unfold match_path_to_owner resolveOpt
  cases h : rs.find? (fun r => rmatchB r.regex path.data) <;> simp [h]

theorem dictInsert_of_fresh (acc : List Rule) (r : Rule)
    (h : ∀ x ∈ acc, x.pat ≠ r.pat) : dictInsert acc r = acc ++ [r] := by
  have hany : (acc.any (fun x => decide (x.pat = r.pat))) = false := by
    rw [List.any_eq_false]
    intro x hx
    simpa using h x hx
  unfold dictInsert
  simp [hany]

theorem loadRules_resolve :
    ∀ (lines : List String) (acc rs : List Rule) (path : String),
      (patsOf lines).Nodup →
      (∀ r ∈ acc, r.pat ∉ patsOf lines) →
      loadRules acc lines = some rs →
      resolveOpt path rs = optOr (resolveOpt path acc) (specResolveOpt path lines)
  | [], acc, rs, path, _, _, h => by
    have hacc : acc = rs := by simpa [loadRules] using h
    subst hacc
    simp [specResolveOpt, optOr_none_right]
  | line :: rest, acc, rs, path, hnd, hdisj, h => by
    cases hp : parseLine line with
    | none =>
      have h' : loadRules acc rest = some rs := by
        simpa [loadRules, hp] using h
      have hpats : patsOf (line :: rest) = patsOf rest := by
        simp [patsOf, List.filterMap_cons, hp]
      have hnd' : (patsOf rest).Nodup := hpats ▸ hnd
      have hdisj' : ∀ r ∈ acc, r.pat ∉ patsOf rest := fun r hr => hpats ▸ hdisj r hr
      rw [loadRules_resolve rest acc rs path hnd' hdisj' h']
      simp [specResolveOpt, hp]
    | some po =>
      cases hc : compileRegex (translateGlob po.1) with
      | none => simp [loadRules, hp, hc] at h
      | some rx =>
        have hpats : patsOf (line :: rest) = translateGlob po.1 :: patsOf rest := by
          simp [patsOf, List.filterMap_cons, hp]
        have hmem : translateGlob po.1 ∈ patsOf (line :: rest) := by
          rw [hpats]; exact List.mem_cons_self _ _
        have hfresh : ∀ x ∈ acc, x.pat ≠ translateGlob po.1 := by
          intro x hx heq
          exact hdisj x hx (heq ▸ hmem)
        have hins : dictInsert acc (Rule.mk (translateGlob po.1) rx po.2)
            = acc ++ [Rule.mk (translateGlob po.1) rx po.2] :=
          dictInsert_of_fresh acc _ hfresh
        have h' : loadRules (acc ++ [Rule.mk (translateGlob po.1) rx po.2]) rest = some rs := by
          have := h
          rw [loadRules, hp] at this
          simpa [hc, hins] using this
        have hnd' : (patsOf rest).Nodup := by
          rw [hpats] at hnd
          exact hnd.of_cons
        have hnotin : translateGlob po.1 ∉ patsOf rest := by
          rw [hpats] at hnd
          exact (List.nodup_cons.mp hnd).1
        have hdisj' : ∀ r ∈ acc ++ [Rule.mk (translateGlob po.1) rx po.2],
            r.pat ∉ patsOf rest := by
          intro r hr
          rcases List.mem_append.mp hr with hr | hr
          · intro hmem'
            exact hdisj r hr (by rw [hpats]; exact List.mem_cons_of_mem _ hmem')
          · have : r = Rule.mk (translateGlob po.1) rx po.2 := by simpa using hr
            subst this
            exact hnotin
        rw [loadRules_resolve rest _ rs path hnd' hdisj' h']
        rw [resolveOpt_append, optOr_assoc]
        have hspec : specResolveOpt path (line :: rest)
            = if rmatchB rx path.data then some po.2 else specResolveOpt path rest := by
          simp only [specResolveOpt, hp, hc]
        have hone : resolveOpt path [Rule.mk (translateGlob po.1) rx po.2]
            = if rmatchB rx path.data then some po.2 else none := by
          rw [resolveOpt_cons]
          cases hm : rmatchB rx path.data <;> simp [resolveOpt, List.find?]
        rw [hspec, hone]
        cases hm : rmatchB rx path.data <;> simp [optOr]

/-- C1 (corrected): on a manifest whose (translated) pattern strings are
pairwise distinct, resolving any path against the loaded rule set returns
the owner of the first manifest rule, in file order, whose compiled
pattern matches the path, and `"Unknown"` when no rule matches; the empty
rule set always resolves to `"Unknown"`, and an absent manifest loads the
empty rule set.  The distinctness hypothesis is the amendment — see
`c1_duplicate_counterexample` for what the code does on duplicate
patterns. -/
theorem c1_first_match_resolution (lines : List String) (rs : List Rule) (path : String)
    (h1 : get_code_owners (some lines) = some rs)
    (h2 : (patsOf lines).Nodup) :
    match_path_to_owner path rs = specFirstMatchOwner lines path
    ∧ (∀ q : String, match_path_to_owner q [] = "Unknown")
    ∧ get_code_owners none = some [] := by
  refine ⟨?_, fun q => rfl, rfl⟩
  have h1' : loadRules [] lines = some rs := h1
  have hres := loadRules_resolve lines [] rs path h2 (by simp) h1'
  rw [match_path_to_owner_eq_getD, specFirstMatchOwner, hres]
  rfl

/-- Witness for C1 on the manifest `a x` / `b y` and the path `a`. -/
theorem c1_first_match_resolution_witness :
    get_code_owners (some ["a x", "b y"])
        = some [Rule.mk "a" (Regex.char 'a') "x", Rule.mk "b" (Regex.char 'b') "y"]
    ∧ (patsOf ["a x", "b y"]).Nodup
    ∧ match_path_to_owner "a"
        [Rule.mk "a" (Regex.char 'a') "x", Rule.mk "b" (Regex.char 'b') "y"]
        = specFirstMatchOwner ["a x", "b y"] "a" :=
  ⟨by decide, by decide,
    (c1_first_match_resolution ["a x", "b y"]
      [Rule.mk "a" (Regex.char 'a') "x", Rule.mk "b" (Regex.char 'b') "y"] "a"
      (by decide) (by decide)).1⟩

/-- Counterexample for C1 as frozen: two manifest rules with the identical
pattern `a` and distinct owners `x` (first) and `y` (second).  Because
`owners_dict` is keyed by the cached compiled pattern, the second line
overwrites the first, the loaded rule set has a single rule carrying the
second owner, and resolving the path `a` returns `y` — not the first
rule's owner `x` that the claim requires. -/
theorem c1_duplicate_counterexample :
    get_code_owners (some ["a x", "a y"]) = some [Rule.mk "a" (Regex.char 'a') "y"]
    ∧ (get_code_owners (some ["a x", "a y"])).map (fun rs => match_path_to_owner "a" rs)
        = some "y"
    ∧ specFirstMatchOwner ["a x", "a y"] "a" = "x"
    ∧ ("y" : String) ≠ "x" :=
  ⟨by decide, by decide, by decide, by decide⟩

/-! ### Claim C4 -/

theorem map_file_filterMap (ow : List Rule) (dt : Int) (au : String) (l : List DiffEntry)
    (h : ∀ d ∈ l, d.a_path ≠ some "") :
    (l.filterMap (fun d =>
      match d.a_path with
      | none => none
      | some s =>
        if s = "" then none
        else some (ChangeRecord.mk dt au s (match_path_to_owner s ow)))).map (fun r => r.file)
      = l.filterMap (fun d => d.a_path) := by
  induction l with
  | nil => rfl
  | cons d t ih =>
    have ht : ∀ d ∈ t, d.a_path ≠ some "" := fun x hx => h x (List.mem_cons_of_mem d hx)
    cases ha : d.a_path with
    | none =>
      simp only [List.filterMap_cons, ha]
      exact ih ht
    | some s =>
      have hs : ¬(s = "") := by
        intro hs0
        exact h d (List.mem_cons_self d t) (by rw [ha, hs0])
      simp only [List.filterMap_cons, ha, if_neg hs, List.map_cons]
      rw [ih ht]

/-- C4 (confirmed): a root commit contributes no ChangeRecords; a commit
with parents is diffed against its first parent only — the extracted
changed files are exactly the a-side paths of that diff (the code also
drops entries whose `a_path` is `None` or the empty string, which carry
no a-side path; the stated equality assumes no empty-string paths, which
git never produces), and the result is unchanged if the commit's
non-first parents are replaced by any others. -/
theorem c4_first_parent_only (diffF : Nat → Nat → List DiffEntry) (ow : List Rule)
    (c : Commit) :
    (c.parents = [] → recordsOfCommit diffF ow c = [])
    ∧ (∀ p rest, c.parents = p :: rest →
        ((∀ d ∈ diffF p c.id, d.a_path ≠ some "") →
          (recordsOfCommit diffF ow c).map (fun r => r.file)
            = (diffF p c.id).filterMap (fun d => d.a_path))
        ∧ ∀ rest' : List Nat,
            recordsOfCommit diffF ow (Commit.mk c.id c.committedDate c.authorEmail (p :: rest'))
              = recordsOfCommit diffF ow
                  (Commit.mk c.id c.committedDate c.authorEmail (p :: rest))) := by
  constructor
  · intro hp
    simp [recordsOfCommit, hp]
  · intro p rest hp
    constructor
    · intro hne
      simp only [recordsOfCommit, hp]
      exact map_file_filterMap ow c.committedDate c.authorEmail (diffF p c.id) hne
    · intro rest'
      rfl

/-- Witness for C4: a root commit yields nothing; a one-parent commit
whose diff has one real entry and one entry without an a-side path yields
exactly that a-side path. -/
theorem c4_first_parent_only_witness :
    recordsOfCommit (fun _ _ => [DiffEntry.mk (some "f"), DiffEntry.mk none]) []
        (Commit.mk 2 0 "e" []) = []
    ∧ (recordsOfCommit (fun _ _ => [DiffEntry.mk (some "f"), DiffEntry.mk none]) []
        (Commit.mk 1 0 "e" [0])).map (fun r => r.file) = ["f"] :=
  ⟨(c4_first_parent_only (fun _ _ => [DiffEntry.mk (some "f"), DiffEntry.mk none]) []
      (Commit.mk 2 0 "e" [])).1 rfl,
   ((c4_first_parent_only (fun _ _ => [DiffEntry.mk (some "f"), DiffEntry.mk none]) []
      (Commit.mk 1 0 "e" [0])).2 0 [] rfl).1 (by decide)⟩

/-! ### Claim C8 -/

/-- C8 (confirmed): zero commits in the window is the distinct terminal
outcome `noCommits`; a non-empty window whose commits produce no
ChangeRecords is the distinct terminal outcome `noChanges`; both are
ordinary values (not the error `none`), both are distinct from every
report-carrying `success` outcome and from each other, and neither
carries a summary or a report. -/
theorem c8_empty_window_outcomes (diffF : Nat → Nat → List DiffEntry)
    (manifest : Option (List String)) (commits : List Commit) :
    (commits = [] → analyze diffF manifest commits = some AnalysisResult.noCommits)
    ∧ (∀ ow, commits ≠ [] → get_code_owners manifest = some ow →
        commitData diffF ow commits = [] →
        analyze diffF manifest commits = some AnalysisResult.noChanges)
    ∧ (∀ s tables, AnalysisResult.noCommits ≠ AnalysisResult.success s tables
        ∧ AnalysisResult.noChanges ≠ AnalysisResult.success s tables)
    ∧ AnalysisResult.noCommits ≠ AnalysisResult.noChanges := by
  refine ⟨?_, ?_, fun s tables => ⟨by simp, by simp⟩, by simp⟩
  · intro h
    subst h
    rfl
  · intro ow hne how hrec
    cases hc : commits.isEmpty with
    | true => exact absurd (List.isEmpty_iff.mp hc) hne
    | false => simp [analyze, hc, how, hrec]

/-- Witness for C8: an empty window, and a window holding only a root
commit (which yields no records). -/
theorem c8_empty_window_outcomes_witness :
    analyze (fun _ _ => []) none [] = some AnalysisResult.noCommits
    ∧ analyze (fun _ _ => []) none [Commit.mk 1 0 "e" []]
        = some AnalysisResult.noChanges :=
  ⟨(c8_empty_window_outcomes (fun _ _ => []) none []).1 rfl,
   (c8_empty_window_outcomes (fun _ _ => []) none [Commit.mk 1 0 "e" []]).2.1 []
      (by simp) rfl rfl⟩

/-! ### Claim C9 -/

theorem match_path_owner_cases (s : String) (rs : List Rule) :
    match_path_to_owner s rs = "Unknown"
      ∨ match_path_to_owner s rs ∈ rs.map (fun r => r.owner) := by
  unfold match_path_to_owner
  cases h : rs.find? (fun r => rmatchB r.regex s.data) with
  | none => exact Or.inl rfl
  | some r => exact Or.inr (List.mem_map.mpr ⟨r, List.mem_of_find?_eq_some h, rfl⟩)

/-- C9 (corrected): every emitted ChangeRecord's owner is either the
sentinel `"Unknown"` or the owner identifier of some rule of the loaded
rule set.  The claim's second half — that the sentinel can never coincide
with a configured owner — fails: see `c9_sentinel_counterexample`. -/
theorem c9_owner_in_rules_or_sentinel (diffF : Nat → Nat → List DiffEntry)
    (manifest : Option (List String)) (rs : List Rule) (commits : List Commit)
    (rec : ChangeRecord)
    (h1 : get_code_owners manifest = some rs)
    (h2 : rec ∈ commitData diffF rs commits) :
    rec.owner = "Unknown" ∨ rec.owner ∈ rs.map (fun r => r.owner) := by
  rcases List.mem_flatMap.mp h2 with ⟨c, hc, hrec⟩
  cases hp : c.parents with
  | nil => simp [recordsOfCommit, hp] at hrec
  | cons p rest =>
    simp only [recordsOfCommit, hp] at hrec
    rcases List.mem_filterMap.mp hrec with ⟨d, hd, hfd⟩
    cases ha : d.a_path with
    | none => simp [ha] at hfd
    | some s =>
      simp only [ha] at hfd
      by_cases hs : s = ""
      · rw [if_pos hs] at hfd
        exact absurd hfd (by simp)
      · rw [if_neg hs] at hfd
        have hmk : ChangeRecord.mk c.committedDate c.authorEmail s (match_path_to_owner s rs)
            = rec := by
          exact Option.some.inj hfd
        have hown : rec.owner = match_path_to_owner s rs := by rw [← hmk]
        rw [hown]
        exact match_path_owner_cases s rs

/-- Witness for C9: one rule `a → x`; the path `f` matches nothing, so
its record's owner is the sentinel. -/
theorem c9_owner_in_rules_or_sentinel_witness :
    get_code_owners (some ["a x"]) = some [Rule.mk "a" (Regex.char 'a') "x"]
    ∧ (ChangeRecord.mk 0 "e" "f" "Unknown"
        ∈ commitData (fun _ _ => [DiffEntry.mk (some "f")])
            [Rule.mk "a" (Regex.char 'a') "x"] [Commit.mk 1 0 "e" [0]])
    ∧ ((ChangeRecord.mk 0 "e" "f" "Unknown").owner = "Unknown"
        ∨ (ChangeRecord.mk 0 "e" "f" "Unknown").owner
            ∈ [Rule.mk "a" (Regex.char 'a') "x"].map (fun r => r.owner)) :=
  ⟨by decide, by decide,
    c9_owner_in_rules_or_sentinel (fun _ _ => [DiffEntry.mk (some "f")]) (some ["a x"])
      [Rule.mk "a" (Regex.char 'a') "x"] [Commit.mk 1 0 "e" [0]]
      (ChangeRecord.mk 0 "e" "f" "Unknown") (by decide) (by decide)⟩

/-- Counterexample for C9 as frozen: nothing disallows or namespaces the
literal `Unknown` as a configured owner — the manifest line `a Unknown`
loads a rule whose owner identifier is exactly the sentinel, and a path
matching that rule resolves to `"Unknown"` indistinguishably from an
unowned path. -/
theorem c9_sentinel_counterexample :
    get_code_owners (some ["a Unknown"]) = some [Rule.mk "a" (Regex.char 'a') "Unknown"]
    ∧ (Rule.mk "a" (Regex.char 'a') "Unknown").owner = "Unknown"
    ∧ match_path_to_owner "a" [Rule.mk "a" (Regex.char 'a') "Unknown"] = "Unknown"
    ∧ rmatchB (Rule.mk "a" (Regex.char 'a') "Unknown").regex "a".data = true :=
  ⟨by decide, rfl, by decide, by decide⟩

/-! ### Claim C7 -/

theorem uniqueFirstAux_mem {α : Type} [DecidableEq α] (seen l : List α) (x : α) :
    x ∈ uniqueFirstAux seen l ↔ x ∈ l ∧ x ∉ seen := by
  induction l generalizing seen with
  | nil => simp [uniqueFirstAux]
  | cons a t ih =>
    by_cases ha : a ∈ seen
    · rw [uniqueFirstAux, if_pos ha, ih seen]
      constructor
      · rintro ⟨hx, hns⟩
        exact ⟨List.mem_cons_of_mem a hx, hns⟩
      · rintro ⟨hx, hns⟩
        rcases List.mem_cons.mp hx with rfl | hx
        · exact absurd ha hns
        · exact ⟨hx, hns⟩
    · rw [uniqueFirstAux, if_neg ha, List.mem_cons, ih (a :: seen)]
      constructor
      · rintro (rfl | ⟨hx, hns⟩)
        · exact ⟨List.mem_cons_self x t, ha⟩
        · exact ⟨List.mem_cons_of_mem a hx, fun hmem => hns (List.mem_cons_of_mem a hmem)⟩
      · rintro ⟨hx, hns⟩
        by_cases hxa : x = a
        · exact Or.inl hxa
        · rcases List.mem_cons.mp hx with rfl | hx
          · exact Or.inl rfl
          · refine Or.inr ⟨hx, fun hmem => ?_⟩
            rcases List.mem_cons.mp hmem with rfl | hmem
            · exact hxa rfl
            · exact hns hmem

theorem uniqueFirstAux_nodup {α : Type} [DecidableEq α] (seen l : List α) :
    (uniqueFirstAux seen l).Nodup := by
  induction l generalizing seen with
  | nil => simp [uniqueFirstAux]
  | cons a t ih =>
    by_cases ha : a ∈ seen
    · rw [uniqueFirstAux, if_pos ha]
      exact ih seen
    · rw [uniqueFirstAux, if_neg ha]
      refine List.nodup_cons.mpr ⟨fun hmem => ?_, ih (a :: seen)⟩
      exact ((uniqueFirstAux_mem (a :: seen) t a).mp hmem).2 (List.mem_cons_self a seen)

theorem uniqueFirst_mem {α : Type} [DecidableEq α] (l : List α) (x : α) :
    x ∈ uniqueFirst l ↔ x ∈ l := by
  simp [uniqueFirst, uniqueFirstAux_mem]

theorem uniqueFirst_nodup {α : Type} [DecidableEq α] (l : List α) :
    (uniqueFirst l).Nodup :=
  uniqueFirstAux_nodup [] l

theorem uniqueFirst_length {α : Type} [DecidableEq α] (l : List α) :
    (uniqueFirst l).length = l.toFinset.card := by
  have htf : (uniqueFirst l).toFinset = l.toFinset := by
    apply Finset.ext
    intro x
    simp [List.mem_toFinset, uniqueFirst_mem]
  rw [← htf, List.card_toFinset, (uniqueFirst_nodup l).dedup]

/-- C7 (confirmed): for a non-empty record multiset the three summary
metrics are the number of distinct commit-date timestamps (not distinct
commit identities: the second conjunct evaluates the pipeline on two
different commits sharing one instant and the metric counts 1), the
number of distinct file paths, and the number of distinct owners. -/
theorem c7_summary_distinct_counts (records : List ChangeRecord) (h : records ≠ []) :
    summaryOf records = Summary.mk
        ((records.map (fun r => r.date)).toFinset.card)
        ((records.map (fun r => r.file)).toFinset.card)
        ((records.map (fun r => r.owner)).toFinset.card)
    ∧ (summaryOf (commitData (fun _ _ => [DiffEntry.mk (some "f")]) []
        [Commit.mk 1 5 "e" [0], Commit.mk 2 5 "e" [0]])).totalCommits = 1
    ∧ Commit.mk 1 5 "e" [0] ≠ Commit.mk 2 5 "e" [0] := by
  refine ⟨?_, by decide, by decide⟩
  unfold summaryOf
  rw [uniqueFirst_length, uniqueFirst_length, uniqueFirst_length]

/-- Witness for C7 on a one-record multiset. -/
theorem c7_summary_distinct_counts_witness :
    ([ChangeRecord.mk 0 "e" "f" "Unknown"] : List ChangeRecord) ≠ []
    ∧ summaryOf [ChangeRecord.mk 0 "e" "f" "Unknown"] = Summary.mk
        (([ChangeRecord.mk 0 "e" "f" "Unknown"].map (fun r => r.date)).toFinset.card)
        (([ChangeRecord.mk 0 "e" "f" "Unknown"].map (fun r => r.file)).toFinset.card)
        (([ChangeRecord.mk 0 "e" "f" "Unknown"].map (fun r => r.owner)).toFinset.card) :=
  ⟨by simp,
    (c7_summary_distinct_counts [ChangeRecord.mk 0 "e" "f" "Unknown"] (by simp)).1⟩

/-! ### Ordering lemmas for the pandas sorts -/

theorem charListLt_irrefl : ∀ l : List Char, charListLt l l = false
  | [] => rfl
  | a :: t => by
    rw [charListLt, if_neg (Nat.lt_irrefl _), if_neg (Nat.lt_irrefl _)]
    exact charListLt_irrefl t

theorem charListLt_asymm : ∀ l1 l2, charListLt l1 l2 = true → charListLt l2 l1 = false
  | [], [], h => by simp [charListLt] at h
  | [], _ :: _, _ => rfl
  | _ :: _, [], h => by simp [charListLt] at h
  | a :: t, b :: u, h => by
    rcases Nat.lt_trichotomy a.toNat b.toNat with hab | hab | hab
    · rw [charListLt, if_neg (Nat.lt_asymm hab), if_pos hab]
    · have h1 : ¬ a.toNat < b.toNat := by rw [hab]; exact Nat.lt_irrefl _
      have h2 : ¬ b.toNat < a.toNat := by rw [hab]; exact Nat.lt_irrefl _
      rw [charListLt, if_neg h1, if_neg h2] at h
      rw [charListLt, if_neg h2, if_neg h1]
      exact charListLt_asymm t u h
    · rw [charListLt, if_neg (Nat.lt_asymm hab), if_pos hab] at h
      exact absurd h (by simp)

theorem charListLt_linear : ∀ l3 l1 l2, charListLt l3 l1 = true →
    charListLt l3 l2 = true ∨ charListLt l2 l1 = true
  | [], [], _, h => by simp [charListLt] at h
  | _ :: _, [], _, h => by simp [charListLt] at h
  | [], _ :: _, [], _ => Or.inr rfl
  | [], _ :: _, _ :: _, _ => Or.inl rfl
  | _ :: _, _ :: _, [], _ => Or.inr rfl
  | c0 :: ct, a0 :: at', b0 :: bt, h => by
    rcases Nat.lt_trichotomy c0.toNat a0.toNat with hca | hca | hca
    · rcases Nat.lt_trichotomy c0.toNat b0.toNat with hcb | hcb | hcb
      · exact Or.inl (by rw [charListLt, if_pos hcb])
      · exact Or.inr (by rw [charListLt, if_pos (hcb ▸ hca)])
      · exact Or.inr (by rw [charListLt, if_pos (Nat.lt_trans hcb hca)])
    · have hnca : ¬ c0.toNat < a0.toNat := by rw [hca]; exact Nat.lt_irrefl _
      have hnac : ¬ a0.toNat < c0.toNat := by rw [hca]; exact Nat.lt_irrefl _
      have h' : charListLt ct at' = true := by
        rw [charListLt, if_neg hnca, if_neg hnac] at h
        exact h
      rcases Nat.lt_trichotomy c0.toNat b0.toNat with hcb | hcb | hcb
      · exact Or.inl (by rw [charListLt, if_pos hcb])
      · have hncb : ¬ c0.toNat < b0.toNat := by rw [hcb]; exact Nat.lt_irrefl _
        have hnbc : ¬ b0.toNat < c0.toNat := by rw [hcb]; exact Nat.lt_irrefl _
        have hnba : ¬ b0.toNat < a0.toNat := by rw [← hcb, hca]; exact Nat.lt_irrefl _
        have hnab : ¬ a0.toNat < b0.toNat := by rw [← hca, hcb]; exact Nat.lt_irrefl _
        rcases charListLt_linear ct at' bt h' with h2 | h2
        · exact Or.inl (by rw [charListLt, if_neg hncb, if_neg hnbc]; exact h2)
        · exact Or.inr (by rw [charListLt, if_neg hnba, if_neg hnab]; exact h2)
      · exact Or.inr (by rw [charListLt, if_pos (hca ▸ hcb)])
    · rw [charListLt, if_neg (Nat.lt_asymm hca), if_pos hca] at h
      exact absurd h (by simp)

theorem charListLt_trans (l1 l2 l3 : List Char)
    (h1 : charListLt l1 l2 = true) (h2 : charListLt l2 l3 = true) :
    charListLt l1 l3 = true := by
  rcases charListLt_linear l1 l2 l3 h1 with h | h
  · exact h
  · rw [charListLt_asymm l2 l3 h2] at h
    exact absurd h (by simp)

theorem charListLt_connex : ∀ l1 l2, charListLt l1 l2 = false → charListLt l2 l1 = false →
    l1 = l2
  | [], [], _, _ => rfl
  | [], _ :: _, h1, _ => by simp [charListLt] at h1
  | _ :: _, [], _, h2 => by simp [charListLt] at h2
  | a :: t, b :: u, h1, h2 => by
    have hab : ¬ a.toNat < b.toNat := by
      intro hx
      rw [charListLt, if_pos hx] at h1
      exact absurd h1 (by simp)
    have hba : ¬ b.toNat < a.toNat := by
      intro hx
      rw [charListLt, if_pos hx] at h2
      exact absurd h2 (by simp)
    have hch : a = b := Char.eq_of_val_eq (UInt32.toNat.inj
      (Nat.le_antisymm (Nat.le_of_not_lt hba) (Nat.le_of_not_lt hab)))
    have ht : t = u :=
      charListLt_connex t u
        (by rw [charListLt, if_neg hab, if_neg hba] at h1; exact h1)
        (by rw [charListLt, if_neg hba, if_neg hab] at h2; exact h2)
    rw [hch, ht]

theorem stringDataEq {s t : String} (h : s.data = t.data) : s = t := by
  cases s
  cases t
  exact congrArg String.mk h

theorem strLeB_total (a b : String) : strLeB a b = true ∨ strLeB b a = true := by
  cases hba : charListLt b.data a.data with
  | false => exact Or.inl (by simp [strLeB, hba])
  | true => exact Or.inr (by simp [strLeB, charListLt_asymm _ _ hba])

theorem strLeB_trans (a b c : String) (h1 : strLeB a b = true) (h2 : strLeB b c = true) :
    strLeB a c = true := by
  rw [strLeB, Bool.not_eq_true'] at h1 h2 ⊢
  cases hlt : charListLt c.data a.data with
  | false => rfl
  | true =>
    rcases charListLt_linear c.data a.data b.data hlt with h | h
    · rw [h2] at h
      exact absurd h (by simp)
    · rw [h1] at h
      exact absurd h (by simp)

theorem strPairLe_total (a b : String × String) : strPairLe a b ∨ strPairLe b a := by
  unfold strPairLe
  by_cases h : a.1 = b.1
  · rcases strLeB_total a.2 b.2 with h2 | h2
    · exact Or.inl (by rw [Bool.or_eq_true, Bool.and_eq_true]
                       exact Or.inr ⟨beq_iff_eq.mpr h, h2⟩)
    · exact Or.inr (by rw [Bool.or_eq_true, Bool.and_eq_true]
                       exact Or.inr ⟨beq_iff_eq.mpr h.symm, h2⟩)
  · have hdata : a.1.data ≠ b.1.data := fun hd => h (stringDataEq hd)
    cases h1 : charListLt a.1.data b.1.data with
    | true => exact Or.inl (by rw [Bool.or_eq_true]; exact Or.inl h1)
    | false =>
      cases h2 : charListLt b.1.data a.1.data with
      | true => exact Or.inr (by rw [Bool.or_eq_true]; exact Or.inl h2)
      | false => exact absurd (charListLt_connex _ _ h1 h2) hdata

theorem strPairLe_trans (a b c : String × String)
    (h1 : strPairLe a b) (h2 : strPairLe b c) : strPairLe a c := by
  unfold strPairLe at h1 h2 ⊢
  rw [Bool.or_eq_true, Bool.and_eq_true] at h1 h2 ⊢
  rcases h1 with h1 | ⟨h1e, h1le⟩
  · rcases h2 with h2 | ⟨h2e, h2le⟩
    · exact Or.inl (charListLt_trans _ _ _ h1 h2)
    · have hbc : b.1 = c.1 := beq_iff_eq.mp h2e
      exact Or.inl (by rw [show c.1 = b.1 from hbc.symm]; exact h1)
  · have hab : a.1 = b.1 := beq_iff_eq.mp h1e
    rcases h2 with h2 | ⟨h2e, h2le⟩
    · exact Or.inl (by rw [show (strLtB a.1 c.1) = (strLtB b.1 c.1) from by rw [hab]]; exact h2)
    · have hbc : b.1 = c.1 := beq_iff_eq.mp h2e
      exact Or.inr ⟨beq_iff_eq.mpr (hab.trans hbc), strLeB_trans _ _ _ h1le h2le⟩

instance : IsTotal (String × String) strPairLe := ⟨strPairLe_total⟩

instance : IsTrans (String × String) strPairLe := ⟨strPairLe_trans⟩

instance : IsTotal String strLe := ⟨fun a b => strLeB_total a b⟩

instance : IsTrans String strLe := ⟨fun a b c => strLeB_trans a b c⟩

instance : IsTotal (String × Nat) (fun a b => b.2 ≤ a.2) := ⟨fun a b => Nat.le_total b.2 a.2⟩

instance : IsTrans (String × Nat) (fun a b => b.2 ≤ a.2) :=
  ⟨fun _ _ _ h1 h2 => Nat.le_trans h2 h1⟩

instance : IsTotal OwnerFileStat (fun a b => b.changes ≤ a.changes) :=
  ⟨fun a b => Nat.le_total b.changes a.changes⟩

instance : IsTrans OwnerFileStat (fun a b => b.changes ≤ a.changes) :=
  ⟨fun _ _ _ h1 h2 => Nat.le_trans h2 h1⟩

/-! ### Claim C6 -/

/-- C6 (corrected): the report orders owners by total change count
descending and, within each owner, files by change count descending.
Ties are NOT broken by record encounter order: the rows entering each
sort come from `groupby`, which lists keys in ascending alphabetical
order (and pandas' default `sort_values` quicksort guarantees no
stability in general), so tie order follows the grouped key order — see
`c6_encounter_order_counterexample`. -/
theorem c6_report_descending (records : List ChangeRecord) :
    ((buildReport records).Pairwise (fun t u => u.total ≤ t.total))
    ∧ (∀ t ∈ buildReport records, t.rows.Pairwise (fun a b => b.changes ≤ a.changes)) := by
  constructor
  · unfold buildReport
    rw [List.pairwise_map]
    exact List.sorted_insertionSort (fun a b : String × Nat => b.2 ≤ a.2)
      (ownerTotals (fileChanges records))
  · intro t ht
    unfold buildReport at ht
    rcases List.mem_map.mp ht with ⟨ot, hot, rfl⟩
    exact List.Pairwise.sublist (List.take_sublist 30 _)
      (List.sorted_insertionSort (fun a b : OwnerFileStat => b.changes ≤ a.changes)
        ((fileChanges records).filter (fun x => decide (x.owner = ot.1))))

/-- Counterexample for C6 as frozen: two records for one owner, the file
`b` encountered before the file `a`, each changed once.  Under the
claim's tie-breaking rule — stable sorts over encounter order, computed
by `specEncounterReport` — the rows come out `b` then `a`; the code
groups rows alphabetically before sorting, so its report lists `a` then
`b`. -/
theorem c6_encounter_order_counterexample :
    buildReport [ChangeRecord.mk 0 "e" "b" "o", ChangeRecord.mk 0 "e" "a" "o"]
      = [OwnerTable.mk "o" 2 [OwnerFileStat.mk "o" "a" 1, OwnerFileStat.mk "o" "b" 1]]
    ∧ specEncounterReport [ChangeRecord.mk 0 "e" "b" "o", ChangeRecord.mk 0 "e" "a" "o"]
      = [OwnerTable.mk "o" 2 [OwnerFileStat.mk "o" "b" 1, OwnerFileStat.mk "o" "a" 1]]
    ∧ buildReport [ChangeRecord.mk 0 "e" "b" "o", ChangeRecord.mk 0 "e" "a" "o"]
      ≠ specEncounterReport [ChangeRecord.mk 0 "e" "b" "o", ChangeRecord.mk 0 "e" "a" "o"] :=
  ⟨by decide, by decide, by decide⟩

/-! ### Claim C5 -/

theorem filter_eq_one_of_nodup : ∀ (l : List String) (o : String), l.Nodup → o ∈ l →
    (l.filter (fun x => decide (x = o))).length = 1
  | [], o, _, hmem => absurd hmem (List.not_mem_nil o)
  | a :: t, o, hnd, hmem => by
    rcases List.mem_cons.mp hmem with rfl | hmem'
    · have hnt : o ∉ t := (List.nodup_cons.mp hnd).1
      rw [List.filter_cons, if_pos (by simp)]
      have hnil : t.filter (fun x => decide (x = o)) = [] := by
        rw [List.filter_eq_nil_iff]
        intro x hx
        simp only [decide_eq_true_eq]
        rintro rfl
        exact hnt hx
      rw [hnil]
      rfl
    · have hao : ¬(a = o) := fun hq => (List.nodup_cons.mp hnd).1 (hq ▸ hmem')
      rw [List.filter_cons, if_neg (by simpa using hao)]
      exact filter_eq_one_of_nodup t o (List.nodup_cons.mp hnd).2 hmem'

/-- C5 (confirmed): for an owner with more than 30 distinct
`file_changes` rows, the report has exactly one table for that owner, the
table keeps exactly 30 rows, every kept row's count dominates every
dropped row's count (the kept rows are the 30 most-changed files), and
the table's displayed total is the sum over ALL of the owner's rows, not
only the 30 kept ones. -/
theorem c5_truncation (records : List ChangeRecord) (o : String)
    (h : 30 < ((fileChanges records).filter (fun x => decide (x.owner = o))).length) :
    (((buildReport records).filter (fun t => decide (t.owner = o))).length = 1)
    ∧ ∀ t ∈ buildReport records, t.owner = o →
        t.rows.length = 30
        ∧ t.total = (((fileChanges records).filter (fun x => decide (x.owner = o))).map
            (fun x => x.changes)).sum
        ∧ ∀ a ∈ t.rows, ∀ b ∈ (fileChanges records).filter (fun x => decide (x.owner = o)),
            b ∉ t.rows → b.changes ≤ a.changes := by
  have hpos : 0 < ((fileChanges records).filter (fun x => decide (x.owner = o))).length :=
    Nat.lt_trans (by norm_num) h
  have hne : (fileChanges records).filter (fun x => decide (x.owner = o)) ≠ [] := by
    intro h0
    rw [h0] at hpos
    exact absurd hpos (by simp)
  obtain ⟨x, hx⟩ := List.exists_mem_of_ne_nil _ hne
  have hxfc : x ∈ fileChanges records := (List.mem_filter.mp hx).1
  have hxo : x.owner = o := by simpa using (List.mem_filter.mp hx).2
  have homem : o ∈ uniqueFirst ((fileChanges records).map (fun y => y.owner)) := by
    rw [uniqueFirst_mem]
    exact List.mem_map.mpr ⟨x, hxfc, hxo⟩
  constructor
  · -- exactly one table for the owner
    unfold buildReport
    rw [List.filter_map, List.length_map]
    have hpred : ((ownerTotalsSorted (fileChanges records)).filter
        ((fun t => decide (t.owner = o)) ∘ (fun ot : String × Nat =>
          OwnerTable.mk ot.1 ot.2
            ((List.insertionSort (fun a b : OwnerFileStat => b.changes ≤ a.changes)
              ((fileChanges records).filter (fun x => decide (x.owner = ot.1)))).take 30))))
        = (ownerTotalsSorted (fileChanges records)).filter
            (fun ot : String × Nat => decide (ot.1 = o)) :=
      List.filter_congr (fun a _ => rfl)
    rw [hpred]
    unfold ownerTotalsSorted
    rw [((List.perm_insertionSort _ _).filter _).length_eq]
    unfold ownerTotals
    rw [List.filter_map, List.length_map]
    have hpred2 : ((List.insertionSort strLe
        (uniqueFirst ((fileChanges records).map (fun y => y.owner)))).filter
        ((fun ot : String × Nat => decide (ot.1 = o)) ∘ (fun o' =>
          (o', (((fileChanges records).filter (fun y => decide (y.owner = o'))).map
            (fun y => y.changes)).sum))))
        = (List.insertionSort strLe
            (uniqueFirst ((fileChanges records).map (fun y => y.owner)))).filter
            (fun x => decide (x = o)) :=
      List.filter_congr (fun a _ => rfl)
    rw [hpred2]
    rw [((List.perm_insertionSort _ _).filter _).length_eq]
    exact filter_eq_one_of_nodup _ o (uniqueFirst_nodup _) homem
  · intro t ht hto
    unfold buildReport at ht
    rcases List.mem_map.mp ht with ⟨ot, hot, rfl⟩
    obtain ⟨o1, tot⟩ := ot
    have hfst : o1 = o := hto
    subst hfst
    have hperm := List.perm_insertionSort (fun a b : OwnerFileStat => b.changes ≤ a.changes)
      ((fileChanges records).filter (fun x => decide (x.owner = o1)))
    refine ⟨?_, ?_, ?_⟩
    · show ((List.insertionSort (fun a b : OwnerFileStat => b.changes ≤ a.changes)
        ((fileChanges records).filter (fun x => decide (x.owner = o1)))).take 30).length = 30
      rw [List.length_take, hperm.length_eq]
      exact Nat.min_eq_left (Nat.le_of_lt h)
    · show tot = (((fileChanges records).filter (fun x => decide (x.owner = o1))).map
        (fun x => x.changes)).sum
      have hmem' : (o1, tot) ∈ ownerTotals (fileChanges records) :=
        (List.perm_insertionSort _ _).mem_iff.mp hot
      unfold ownerTotals at hmem'
      rcases List.mem_map.mp hmem' with ⟨o', ho', heq⟩
      have h1 : o' = o1 := congrArg Prod.fst heq
      have h2 : (((fileChanges records).filter (fun y => decide (y.owner = o'))).map
          (fun y => y.changes)).sum = tot := congrArg Prod.snd heq
      rw [← h2, h1]
    · intro a ha b hb hbnot
      have hsorted : (List.insertionSort (fun a b : OwnerFileStat => b.changes ≤ a.changes)
          ((fileChanges records).filter (fun x => decide (x.owner = o1)))).Pairwise
          (fun a b => b.changes ≤ a.changes) :=
        List.sorted_insertionSort _ _
      have hbs : b ∈ List.insertionSort (fun a b : OwnerFileStat => b.changes ≤ a.changes)
          ((fileChanges records).filter (fun x => decide (x.owner = o1))) :=
        hperm.mem_iff.mpr hb
      have hbs' : b ∈ (List.insertionSort (fun a b : OwnerFileStat => b.changes ≤ a.changes)
          ((fileChanges records).filter (fun x => decide (x.owner = o1)))).take 30
          ++ (List.insertionSort (fun a b : OwnerFileStat => b.changes ≤ a.changes)
          ((fileChanges records).filter (fun x => decide (x.owner = o1)))).drop 30 := by
        rw [List.take_append_drop]
        exact hbs
      rcases List.mem_append.mp hbs' with hbt | hbd
      · exact absurd hbt hbnot
      · have hsorted' : ((List.insertionSort (fun a b : OwnerFileStat => b.changes ≤ a.changes)
            ((fileChanges records).filter (fun x => decide (x.owner = o1)))).take 30
            ++ (List.insertionSort (fun a b : OwnerFileStat => b.changes ≤ a.changes)
            ((fileChanges records).filter (fun x => decide (x.owner = o1)))).drop 30).Pairwise
            (fun a b => b.changes ≤ a.changes) := by
          rw [List.take_append_drop]
          exact hsorted
        exact (List.pairwise_append.mp hsorted').2.2 a ha b hbd

/-- Concrete record multiset for the C5 witness: one owner touching 31
distinct files once each. -/
def c5WitnessRecords : List ChangeRecord :=
  (List.range 31).map (fun i => ChangeRecord.mk 0 "e" (String.mk [Char.ofNat (65 + i)]) "o")

/-- Witness for C5 on an owner with 31 distinct files. -/
theorem c5_truncation_witness :
    30 < ((fileChanges c5WitnessRecords).filter (fun x => decide (x.owner = "o"))).length
    ∧ ∀ t ∈ buildReport c5WitnessRecords, t.owner = "o" →
        t.rows.length = 30
        ∧ t.total = (((fileChanges c5WitnessRecords).filter
            (fun x => decide (x.owner = "o"))).map (fun x => x.changes)).sum
        ∧ ∀ a ∈ t.rows,
            ∀ b ∈ (fileChanges c5WitnessRecords).filter (fun x => decide (x.owner = "o")),
            b ∉ t.rows → b.changes ≤ a.changes :=
  ⟨by decide, (c5_truncation c5WitnessRecords "o" (by decide)).2⟩
